import Mathlib

/-!
Shallow embedding of the transfer-learning freeze/unfreeze scheduler of
`modelci/experimental/finetuner/transfer_learning.py`.

A PyTorch `Module` is modelled as a rose tree: each node carries its
`isBN` classification (membership in `BN_TYPES`), its `training` mode
flag, its directly registered parameters, and its ordered children.
A `Param` is identified by a numeric id and carries its mutable
`requires_grad` flag.  The in-place mutations of the Python code become
tree-to-tree functions.  Learning rates are modelled as rationals.
-/

namespace TransferLearning

/-- A parameter: identity (`id`) plus its `requires_grad` flag. -/
structure Param where
  id : Nat
  requires_grad : Bool
deriving DecidableEq, Repr

/-- A module node: BN classification, training-mode flag, directly
registered parameters, ordered children. -/
inductive Module where
  | mk (isBN : Bool) (training : Bool) (params : List Param) (children : List Module)

/-- The children of a module (`module.children()`). -/
def Module.children : Module → List Module
  | .mk _ _ _ cs => cs

/-- The directly registered parameters of a module. -/
def Module.params : Module → List Param
  | .mk _ _ ps _ => ps

/-- The training-mode flag of a module. -/
def Module.training : Module → Bool
  | .mk _ t _ _ => t

/-- Whether the module is a batch-normalization layer (`BN_TYPES`). -/
def Module.isBN : Module → Bool
  | .mk b _ _ _ => b

mutual
/-- `_make_trainable(module)`: sets `requires_grad = True` on every
parameter of the subtree (`module.parameters()` is recursive) and calls
`module.train()`, which recursively puts the whole subtree in training
mode. -/
def make_trainable : Module → Module
  | .mk b _ ps cs => .mk b true (ps.map fun p => ⟨p.id, true⟩) (make_trainableL cs)

def make_trainableL : List Module → List Module
  | [] => []
  | c :: cs => make_trainable c :: make_trainableL cs
end

mutual
/-- `_recursive_freeze(module, train_bn)`: on a leaf, either keep a BN
layer trainable (when `train_bn`) or freeze its parameters and switch it
to eval mode; on a non-leaf, recurse into the children, leaving the
node's own parameters and mode untouched. -/
def recursive_freeze (train_bn : Bool) : Module → Module
  | .mk b t ps [] =>
      if b && train_bn then make_trainable (.mk b t ps [])
      else .mk b false (ps.map fun p => ⟨p.id, false⟩) []
  | .mk b t ps (c :: cs) => .mk b t ps (recursive_freezeL train_bn (c :: cs))

def recursive_freezeL (train_bn : Bool) : List Module → List Module
  | [] => []
  | c :: cs => recursive_freeze train_bn c :: recursive_freezeL train_bn cs
end

/-- Python slice-index normalization: the split point of `l[:v]` / `l[v:]`
for a list of length `c` and an `int` index `v`. -/
def pySliceIdx (c : Nat) (v : Int) : Nat :=
  min (if v < 0 then v + c else v).toNat c

/-- `freeze(module, n, train_bn)`: recursively freeze `children[:n_max]`
and make `children[n_max:]` trainable, where `n_max = len(children)` when
`n is None` and `int(n)` otherwise (no validation of `n`). -/
def freeze (m : Module) (n : Option Int) (train_bn : Bool) : Module :=
  match m with
  | .mk b t ps cs =>
      let idx := match n with
        | none => cs.length
        | some v => pySliceIdx cs.length v
      .mk b t ps
        ((cs.take idx).map (recursive_freeze train_bn) ++
          (cs.drop idx).map make_trainable)

mutual
/-- `filter_params(module, train_bn)`: yields the `requires_grad`
parameters of the leaves of the subtree, skipping BN leaves when
`train_bn` is true; parameters registered directly on non-leaf nodes are
never yielded. -/
def filter_params (train_bn : Bool) : Module → List Nat
  | .mk b _ ps [] =>
      if b && train_bn then []
      else (ps.filter (·.requires_grad)).map (·.id)
  | .mk _ _ _ (c :: cs) => filter_paramsL train_bn (c :: cs)

def filter_paramsL (train_bn : Bool) : List Module → List Nat
  | [] => []
  | c :: cs => filter_params train_bn c ++ filter_paramsL train_bn cs
end

/-- One optimizer parameter group: member parameter ids plus a learning
rate. -/
structure ParamGroup where
  params : List Nat
  lr : ℚ
deriving DecidableEq, Repr, Inhabited

/-- The optimizer: an ordered list of parameter groups, supporting append
only (`add_param_group`). -/
structure Optimizer where
  param_groups : List ParamGroup
deriving DecidableEq, Repr

/-- `_unfreeze_and_add_param_group(module, optimizer, lr, train_bn)`:
make the subtree trainable, then append one group holding
`filter_params` of the (now trainable) subtree with rate
`(lr if given else optimizer.param_groups[0]["lr"]) / 10`.  `none` is
returned exactly when `lr is None` and the optimizer has no group 0
(Python would raise `IndexError`). -/
def unfreeze_and_add_param_group (m : Module) (opt : Optimizer)
    (lr : Option ℚ) (train_bn : Bool) : Option (Module × Optimizer) :=
  let m' := make_trainable m
  let params_lr : Option ℚ := match lr with
    | some l => some l
    | none => opt.param_groups.head?.map (·.lr)
  params_lr.map fun plr =>
    (m', ⟨opt.param_groups ++ [⟨filter_params train_bn m', plr / 10⟩]⟩)

/-! ### Observation functions -/

mutual
/-- All parameter ids of the subtree (`module.parameters()` order:
direct parameters first, then children recursively). -/
def allParamIds : Module → List Nat
  | .mk _ _ ps cs => ps.map (·.id) ++ allParamIdsL cs

def allParamIdsL : List Module → List Nat
  | [] => []
  | c :: cs => allParamIds c ++ allParamIdsL cs
end

mutual
/-- Ids of the parameters of the subtree whose `requires_grad` flag is
set (what `filter(lambda p: p.requires_grad, module.parameters())`
collects). -/
def trainableIds : Module → List Nat
  | .mk _ _ ps cs =>
      (ps.filter (·.requires_grad)).map (·.id) ++ trainableIdsL cs

def trainableIdsL : List Module → List Nat
  | [] => []
  | c :: cs => trainableIds c ++ trainableIdsL cs
end

mutual
/-- Ids of parameters sitting on BN leaves of the subtree. -/
def bnLeafIds : Module → List Nat
  | .mk b _ ps [] => if b then ps.map (·.id) else []
  | .mk _ _ _ (c :: cs) => bnLeafIdsL (c :: cs)

def bnLeafIdsL : List Module → List Nat
  | [] => []
  | c :: cs => bnLeafIds c ++ bnLeafIdsL cs
end

mutual
/-- Ids of parameters sitting on non-BN leaves of the subtree. -/
def nonBNLeafIds : Module → List Nat
  | .mk b _ ps [] => if b then [] else ps.map (·.id)
  | .mk _ _ _ (c :: cs) => nonBNLeafIdsL (c :: cs)

def nonBNLeafIdsL : List Module → List Nat
  | [] => []
  | c :: cs => nonBNLeafIds c ++ nonBNLeafIdsL cs
end

mutual
/-- The leaf nodes of the subtree, in traversal order. -/
def leaves : Module → List Module
  | .mk b t ps [] => [.mk b t ps []]
  | .mk _ _ _ (c :: cs) => leavesL (c :: cs)

def leavesL : List Module → List Module
  | [] => []
  | c :: cs => leaves c ++ leavesL cs
end

mutual
/-- The `(isBN, training, params)` data of the non-leaf nodes of the
subtree, in preorder. -/
def internals : Module → List (Bool × Bool × List Param)
  | .mk _ _ _ [] => []
  | .mk b t ps (c :: cs) => (b, t, ps) :: internalsL (c :: cs)

def internalsL : List Module → List (Bool × Bool × List Param)
  | [] => []
  | c :: cs => internals c ++ internalsL cs
end

mutual
/-- The spec's Unit data model: parameters live only on leaves. -/
def leavesOnly : Module → Bool
  | .mk _ _ _ [] => true
  | .mk _ _ ps (c :: cs) => ps.isEmpty && leavesOnlyL (c :: cs)

def leavesOnlyL : List Module → Bool
  | [] => true
  | c :: cs => leavesOnly c && leavesOnlyL cs
end

/-! ### The stage scheduler (modelled from the spec) and fixtures -/

/-- The effective split index `n_max` computed by `freeze`:
`len(children)` when `n is None`, else the Python slice index of
`int(n)`. -/
def effIdx (c : Nat) (n : Option Int) : Nat :=
  match n with
  | none => c
  | some v => pySliceIdx c v

/-- Modelled from the spec: group 0 of the optimizer as set up at
configuration time (`configure_optimizers` builds it from
`filter(lambda p: p.requires_grad, self.parameters())`). -/
def initialOptimizer (net : Module) (lr0 : ℚ) : Optimizer :=
  ⟨[⟨trainableIds net, lr0⟩]⟩

/-- Modelled from the spec: the Stage Scheduler firing the
Parameter-Group Synchronizer (`_unfreeze_and_add_param_group`) on the
designated child subtree `i` of the network; the scheduler itself is
absent from the sources (spec section 4.4). -/
def fireOnChild (tb : Bool) (lr : Option ℚ) (i : Nat) :
    Module × Optimizer → Module × Optimizer
  | (Module.mk b t ps cs, opt) =>
    if h : i < cs.length then
      match unfreeze_and_add_param_group (cs.get ⟨i, h⟩) opt lr tb with
      | some (c', opt') => (Module.mk b t ps (cs.set i c'), opt')
      | none => (Module.mk b t ps cs, opt)
    else (Module.mk b t ps cs, opt)

/-- Modelled from the spec: the sequence of unfreeze-and-add-group
transitions a schedule prescribes, each designating a child subtree and
an optional explicit learning rate. -/
def processStages (tb : Bool) (targets : List (Nat × Option ℚ))
    (s : Module × Optimizer) : Module × Optimizer :=
  targets.foldl (fun s p => fireOnChild tb p.2 p.1 s) s

/-- Modelled from the spec: one stage of the StageSchedule — an epoch
threshold, a designated child subtree, and an optional explicit
learning rate. -/
structure Stage where
  milestone : Nat
  target : Nat
  lr : Option ℚ
deriving DecidableEq, Repr

/-- Modelled from the spec: the Stage Scheduler's epoch-boundary entry
point. The state is the list of not-yet-fired stages (the suffix of the
immutable schedule past the stage pointer) together with the network and
the optimizer; while the next un-fired threshold is `≤ e`, its
transition fires and the pointer advances. -/
def onEpochEnd (tb : Bool) (e : Nat) :
    List Stage → Module × Optimizer → List Stage × (Module × Optimizer)
  | [], s => ([], s)
  | st :: rest, s =>
      if st.milestone ≤ e then
        onEpochEnd tb e rest (fireOnChild tb st.lr st.target s)
      else (st :: rest, s)

/-- The collector exactly as claim C4 words it: the parameters of the
subtree currently marked trainable, excluding normalization-unit
parameters when `keep_norm_trainable` is false. -/
def claimedCollect (tb : Bool) (m : Module) : List Nat :=
  if tb then trainableIds m
  else (trainableIds m).filter (fun i => !(bnLeafIds m).contains i)

/-- Fixture: a non-BN leaf holding one trainable parameter `i`. -/
def pLeaf (i : Nat) : Module := Module.mk false true [⟨i, true⟩] []

/-- Fixture: a BN leaf holding one trainable parameter `i`. -/
def bnLeaf (i : Nat) : Module := Module.mk true true [⟨i, true⟩] []

/-- Fixture: a leaf with no parameters at all. -/
def emptyLeaf : Module := Module.mk false true [] []

/-- Fixture: a root with two single-parameter leaf children. -/
def twoLeafNet : Module := Module.mk false true [] [pLeaf 0, pLeaf 1]

/-! ### Induction principle and list-helper rewrites -/

/-- Structural induction over `Module` through the nested `List`. -/
theorem Module.inductionOn {P : Module → Prop}
    (ih : ∀ b t ps cs, (∀ c ∈ cs, P c) → P (Module.mk b t ps cs)) :
    ∀ m, P m
  | Module.mk b t ps cs => ih b t ps cs fun c hc =>
      Module.inductionOn ih c
termination_by m => sizeOf m
decreasing_by
  have h1 := List.sizeOf_lt_of_mem hc
  simp only [Module.mk.sizeOf_spec]
  omega

@[simp] theorem make_trainableL_eq (cs : List Module) :
    make_trainableL cs = cs.map make_trainable := by
  induction cs with
  | nil => rfl
  | cons c cs ihc => simp [make_trainableL, ihc]

@[simp] theorem recursive_freezeL_eq (tb : Bool) (cs : List Module) :
    recursive_freezeL tb cs = cs.map (recursive_freeze tb) := by
  induction cs with
  | nil => rfl
  | cons c cs ihc => simp [recursive_freezeL, ihc]

@[simp] theorem filter_paramsL_eq (tb : Bool) (cs : List Module) :
    filter_paramsL tb cs = cs.flatMap (filter_params tb) := by
  induction cs with
  | nil => rfl
  | cons c cs ihc => simp [filter_paramsL, ihc, List.flatMap_cons]

@[simp] theorem allParamIdsL_eq (cs : List Module) :
    allParamIdsL cs = cs.flatMap allParamIds := by
  induction cs with
  | nil => rfl
  | cons c cs ihc => simp [allParamIdsL, ihc, List.flatMap_cons]

@[simp] theorem trainableIdsL_eq (cs : List Module) :
    trainableIdsL cs = cs.flatMap trainableIds := by
  induction cs with
  | nil => rfl
  | cons c cs ihc => simp [trainableIdsL, ihc, List.flatMap_cons]

@[simp] theorem bnLeafIdsL_eq (cs : List Module) :
    bnLeafIdsL cs = cs.flatMap bnLeafIds := by
  induction cs with
  | nil => rfl
  | cons c cs ihc => simp [bnLeafIdsL, ihc, List.flatMap_cons]

@[simp] theorem nonBNLeafIdsL_eq (cs : List Module) :
    nonBNLeafIdsL cs = cs.flatMap nonBNLeafIds := by
  induction cs with
  | nil => rfl
  | cons c cs ihc => simp [nonBNLeafIdsL, ihc, List.flatMap_cons]

@[simp] theorem leavesL_eq (cs : List Module) :
    leavesL cs = cs.flatMap leaves := by
  induction cs with
  | nil => rfl
  | cons c cs ihc => simp [leavesL, ihc, List.flatMap_cons]

@[simp] theorem internalsL_eq (cs : List Module) :
    internalsL cs = cs.flatMap internals := by
  induction cs with
  | nil => rfl
  | cons c cs ihc => simp [internalsL, ihc, List.flatMap_cons]

@[simp] theorem leavesOnlyL_eq (cs : List Module) :
    leavesOnlyL cs = cs.all leavesOnly := by
  induction cs with
  | nil => rfl
  | cons c cs ihc => simp [leavesOnlyL, ihc]

/-! ### Effect lemmas for the freeze controller -/

theorem allParamIds_make_trainable (m : Module) :
    allParamIds (make_trainable m) = allParamIds m := by
  induction m using Module.inductionOn with
  | ih b t ps cs h =>
    simp only [make_trainable, allParamIds, make_trainableL_eq, allParamIdsL_eq,
      List.flatMap_map, List.map_map]
    rw [List.flatMap_congr h]
    simp [Function.comp_def]

theorem trainableIds_make_trainable (m : Module) :
    trainableIds (make_trainable m) = allParamIds m := by
  induction m using Module.inductionOn with
  | ih b t ps cs h =>
    simp only [make_trainable, trainableIds, allParamIds, make_trainableL_eq,
      trainableIdsL_eq, allParamIdsL_eq, List.flatMap_map, List.map_map]
    rw [List.flatMap_congr h]
    congr 1
    simp [List.filter_map, Function.comp_def]

theorem bnLeafIds_make_trainable (m : Module) :
    bnLeafIds (make_trainable m) = bnLeafIds m := by
  induction m using Module.inductionOn with
  | ih b t ps cs h =>
    cases cs with
    | nil => cases b <;> simp [make_trainable, bnLeafIds, List.map_map]
    | cons c cs' =>
      simp only [make_trainable, make_trainableL, make_trainableL_eq, bnLeafIds,
        bnLeafIdsL_eq, List.flatMap_cons]
      rw [h c (by simp), List.flatMap_map,
        List.flatMap_congr (fun x hx => h x (by simp [hx]))]

theorem nonBNLeafIds_make_trainable (m : Module) :
    nonBNLeafIds (make_trainable m) = nonBNLeafIds m := by
  induction m using Module.inductionOn with
  | ih b t ps cs h =>
    cases cs with
    | nil => cases b <;> simp [make_trainable, nonBNLeafIds, List.map_map]
    | cons c cs' =>
      simp only [make_trainable, make_trainableL, make_trainableL_eq, nonBNLeafIds,
        nonBNLeafIdsL_eq, List.flatMap_cons]
      rw [h c (by simp), List.flatMap_map,
        List.flatMap_congr (fun x hx => h x (by simp [hx]))]

theorem allParamIds_recursive_freeze (tb : Bool) (m : Module) :
    allParamIds (recursive_freeze tb m) = allParamIds m := by
  induction m using Module.inductionOn with
  | ih b t ps cs h =>
    cases cs with
    | nil =>
      cases b <;> cases tb <;>
        simp [recursive_freeze, make_trainable, allParamIds,
          List.map_map, Function.comp_def]
    | cons c cs' =>
      simp only [recursive_freeze, recursive_freezeL, recursive_freezeL_eq,
        allParamIds, allParamIdsL_eq, List.flatMap_cons]
      rw [h c (by simp), List.flatMap_map,
        List.flatMap_congr (fun x hx => h x (by simp [hx]))]

theorem bnLeafIds_recursive_freeze (tb : Bool) (m : Module) :
    bnLeafIds (recursive_freeze tb m) = bnLeafIds m := by
  induction m using Module.inductionOn with
  | ih b t ps cs h =>
    cases cs with
    | nil =>
      cases b <;> cases tb <;>
        simp [recursive_freeze, bnLeafIds, make_trainable, List.map_map,
          Function.comp_def]
    | cons c cs' =>
      simp only [recursive_freeze, recursive_freezeL, recursive_freezeL_eq,
        bnLeafIds, bnLeafIdsL_eq, List.flatMap_cons]
      rw [h c (by simp), List.flatMap_map,
        List.flatMap_congr (fun x hx => h x (by simp [hx]))]

theorem nonBNLeafIds_recursive_freeze (tb : Bool) (m : Module) :
    nonBNLeafIds (recursive_freeze tb m) = nonBNLeafIds m := by
  induction m using Module.inductionOn with
  | ih b t ps cs h =>
    cases cs with
    | nil =>
      cases b <;> cases tb <;>
        simp [recursive_freeze, nonBNLeafIds, make_trainable, List.map_map,
          Function.comp_def]
    | cons c cs' =>
      simp only [recursive_freeze, recursive_freezeL, recursive_freezeL_eq,
        nonBNLeafIds, nonBNLeafIdsL_eq, List.flatMap_cons]
      rw [h c (by simp), List.flatMap_map,
        List.flatMap_congr (fun x hx => h x (by simp [hx]))]

theorem trainableIds_recursive_freeze (tb : Bool) (m : Module) :
    leavesOnly m = true →
    trainableIds (recursive_freeze tb m) = if tb then bnLeafIds m else [] := by
  induction m using Module.inductionOn with
  | ih b t ps cs h =>
    intro hm
    cases cs with
    | nil =>
      cases b <;> cases tb <;>
        simp [recursive_freeze, make_trainable, trainableIds, bnLeafIds,
          List.filter_map, Function.comp_def]
    | cons c cs' =>
      simp only [leavesOnly, Bool.and_eq_true, List.isEmpty_iff] at hm
      obtain ⟨hps, hcs⟩ := hm
      simp only [leavesOnlyL_eq, List.all_eq_true] at hcs
      subst hps
      cases tb with
      | false =>
        simp only [recursive_freeze, recursive_freezeL_eq, trainableIds,
          trainableIdsL_eq, List.flatMap_map, List.filter_nil, List.map_nil,
          List.nil_append, Bool.false_eq_true, if_false]
        rw [List.flatMap_congr (fun x hx => by
          simpa using h x hx (hcs x hx))]
        simp
      | true =>
        simp only [recursive_freeze, recursive_freezeL_eq, trainableIds,
          trainableIdsL_eq, List.flatMap_map, List.filter_nil, List.map_nil,
          List.nil_append, if_true, bnLeafIds, bnLeafIdsL_eq]
        rw [List.flatMap_congr (fun x hx => by
          simpa using h x hx (hcs x hx))]

theorem filter_params_make_trainable (tb : Bool) (m : Module) :
    leavesOnly m = true →
    filter_params tb (make_trainable m) =
      if tb then nonBNLeafIds m else allParamIds m := by
  induction m using Module.inductionOn with
  | ih b t ps cs h =>
    intro hm
    cases cs with
    | nil =>
      cases b <;> cases tb <;>
        simp [make_trainable, filter_params, nonBNLeafIds, allParamIds,
          List.filter_map, Function.comp_def, List.map_map]
    | cons c cs' =>
      simp only [leavesOnly, Bool.and_eq_true, List.isEmpty_iff] at hm
      obtain ⟨hps, hcs⟩ := hm
      simp only [leavesOnlyL_eq, List.all_eq_true] at hcs
      subst hps
      cases tb <;>
        simp only [make_trainable, make_trainableL, make_trainableL_eq,
          filter_params, filter_paramsL_eq, nonBNLeafIds, nonBNLeafIdsL_eq,
          allParamIds, allParamIdsL_eq, List.flatMap_cons, List.flatMap_map,
          List.map_nil, List.nil_append] <;>
        rw [h c (by simp) (hcs c (by simp)),
          List.flatMap_congr (fun x hx => by
            rw [h x (by simp [hx]) (hcs x (by simp [hx]))])] <;> simp

theorem count_flatMap_add (f g k : Module → List Nat) (l : List Module) (i : Nat)
    (hp : ∀ x ∈ l, (f x).count i = (g x).count i + (k x).count i) :
    (l.flatMap f).count i = (l.flatMap g).count i + (l.flatMap k).count i := by
  induction l with
  | nil => simp
  | cons c cs ihc =>
    simp only [List.flatMap_cons, List.count_append, hp c (by simp),
      ihc (fun x hx => hp x (by simp [hx]))]
    omega

theorem count_allParamIds_split (m : Module) (i : Nat) :
    leavesOnly m = true →
    (allParamIds m).count i =
      (bnLeafIds m).count i + (nonBNLeafIds m).count i := by
  induction m using Module.inductionOn with
  | ih b t ps cs h =>
    intro hm
    cases cs with
    | nil => cases b <;> simp [allParamIds, bnLeafIds, nonBNLeafIds]
    | cons c cs' =>
      simp only [leavesOnly, Bool.and_eq_true, List.isEmpty_iff] at hm
      obtain ⟨hps, hcs⟩ := hm
      simp only [leavesOnlyL_eq, List.all_eq_true] at hcs
      subst hps
      simp only [allParamIds, allParamIdsL_eq, bnLeafIds, bnLeafIdsL_eq,
        nonBNLeafIds, nonBNLeafIdsL_eq, List.map_nil, List.nil_append]
      exact count_flatMap_add _ _ _ _ _ (fun x hx => h x hx (hcs x hx))

theorem make_trainable_recursive_freeze (tb : Bool) (m : Module) :
    make_trainable (recursive_freeze tb m) = make_trainable m := by
  induction m using Module.inductionOn with
  | ih b t ps cs h =>
    cases cs with
    | nil =>
      cases b <;> cases tb <;>
        simp [recursive_freeze, make_trainable, List.map_map, Function.comp_def]
    | cons c cs' =>
      simp only [recursive_freeze, recursive_freezeL_eq, make_trainable,
        make_trainableL_eq, List.map_map, List.map_cons, Module.mk.injEq,
        true_and]
      congr 1
      · exact h c (by simp)
      · exact List.map_congr_left (fun x hx => by
          simpa [Function.comp_def] using h x (by simp [hx]))

theorem mem_trainableIds_allParamIds (m : Module) (i : Nat) :
    i ∈ trainableIds m → i ∈ allParamIds m := by
  induction m using Module.inductionOn with
  | ih b t ps cs h =>
    simp only [trainableIds, allParamIds, trainableIdsL_eq, allParamIdsL_eq,
      List.mem_append, List.mem_flatMap, List.mem_map, List.mem_filter]
    rintro (⟨p, ⟨hp, _⟩, hpi⟩ | ⟨c, hc, hci⟩)
    · exact Or.inl ⟨p, hp, hpi⟩
    · exact Or.inr ⟨c, hc, h c hc hci⟩

theorem mem_filter_params_allParamIds (tb : Bool) (m : Module) (i : Nat) :
    i ∈ filter_params tb m → i ∈ allParamIds m := by
  induction m using Module.inductionOn with
  | ih b t ps cs h =>
    cases cs with
    | nil =>
      cases b <;> cases tb <;>
        simp only [filter_params, allParamIds, allParamIdsL_eq, Bool.and_self,
          Bool.and_false, Bool.and_true, if_true, if_false, List.mem_map,
          List.mem_filter, List.flatMap_nil, List.append_nil,
          List.not_mem_nil, Bool.false_eq_true, Bool.true_eq_false,
          reduceIte] <;>
        rintro ⟨p, ⟨hp, _⟩, hpi⟩ <;> exact ⟨p, hp, hpi⟩
    | cons c cs' =>
      simp only [filter_params, filter_paramsL_eq, allParamIds, allParamIdsL_eq,
        List.mem_flatMap, List.mem_append]
      rintro ⟨x, hx, hxi⟩
      exact Or.inr ⟨x, hx, h x hx hxi⟩

/-! ### Helper lemmas for the stage pipeline -/

theorem unfreeze_shape (m : Module) (opt : Optimizer) (lr : Option ℚ)
    (tb : Bool) (h : opt.param_groups ≠ []) :
    ∃ plr : ℚ, unfreeze_and_add_param_group m opt lr tb =
      some (make_trainable m,
        ⟨opt.param_groups ++
          [⟨filter_params tb (make_trainable m), plr⟩]⟩) := by
  cases lr with
  | some l => exact ⟨l / 10, rfl⟩
  | none =>
    cases hpg : opt.param_groups with
    | nil => exact absurd hpg h
    | cons g0 gs =>
      exact ⟨g0.lr / 10, by simp [unfreeze_and_add_param_group, hpg]⟩

theorem mem_flatMap_index (f : Module → List Nat) (l : List Module)
    (i : Nat) :
    i ∈ l.flatMap f ↔ ∃ (j : Nat) (c : Module), l[j]? = some c ∧ i ∈ f c := by
  rw [List.mem_flatMap]
  constructor
  · rintro ⟨c, hc, hm⟩
    obtain ⟨j, hj⟩ := List.mem_iff_getElem?.1 hc
    exact ⟨j, c, hj, hm⟩
  · rintro ⟨j, c, hj, hm⟩
    exact ⟨c, List.getElem?_mem hj, hm⟩

theorem nodup_flatMap_disjoint (l : List Module) (f : Module → List Nat)
    (hnd : (l.flatMap f).Nodup) (j1 j2 : Nat) (c1 c2 : Module)
    (h1 : l[j1]? = some c1) (h2 : l[j2]? = some c2) (hne : j1 ≠ j2)
    (i : Nat) (hi : i ∈ f c1) : i ∉ f c2 := by
  rw [List.nodup_flatMap] at hnd
  have hp := hnd.2
  rw [List.pairwise_iff_getElem] at hp
  obtain ⟨hl1, he1⟩ := List.getElem?_eq_some.1 h1
  obtain ⟨hl2, he2⟩ := List.getElem?_eq_some.1 h2
  rcases Nat.lt_or_ge j1 j2 with hlt | hge
  · have := hp j1 j2 hl1 hl2 hlt
    rw [he1, he2] at this
    exact this hi
  · have hlt : j2 < j1 := by omega
    have := hp j2 j1 hl2 hl1 hlt
    rw [he1, he2] at this
    exact fun hc => this hc hi

theorem allParamIds_child_case (tb : Bool) (c c' : Module)
    (h : c' = recursive_freeze tb c ∨ c' = make_trainable c) :
    allParamIds c' = allParamIds c := by
  rcases h with h | h <;> subst h
  · exact allParamIds_recursive_freeze tb c
  · exact allParamIds_make_trainable c

theorem effIdx_le (c : Nat) (n : Option Int) : effIdx c n ≤ c := by
  cases n with
  | none => exact Nat.le_refl c
  | some v =>
    show pySliceIdx c v ≤ c
    unfold pySliceIdx
    omega

theorem freeze_eq_effIdx (b t : Bool) (ps : List Param) (cs : List Module)
    (n : Option Int) (tb : Bool) :
    freeze (Module.mk b t ps cs) n tb =
      Module.mk b t ps
        ((cs.take (effIdx cs.length n)).map (recursive_freeze tb) ++
         (cs.drop (effIdx cs.length n)).map make_trainable) := by
  cases n <;> rfl

theorem getElem?_freeze_children (cs : List Module) (k : Nat) (tb : Bool)
    (hk : k ≤ cs.length) (j : Nat) :
    ((cs.take k).map (recursive_freeze tb) ++
        (cs.drop k).map make_trainable)[j]? =
      if j < k then (cs[j]?).map (recursive_freeze tb)
      else (cs[j]?).map make_trainable := by
  rw [List.getElem?_append]
  simp only [List.length_map, List.length_take, List.getElem?_map,
    List.getElem?_take, List.getElem?_drop]
  by_cases hj : j < k
  · rw [if_pos (by omega), if_pos hj, if_pos hj]
  · rw [if_neg (by omega), if_neg hj]
    have : k + (j - min k cs.length) = j := by omega
    rw [this]

/-- The per-stage invariant: along any schedule of distinct, not yet
fired child targets, the optimizer's groups partition exactly the
currently trainable parameter ids. -/
theorem processStages_count (b t : Bool) (ps : List Param)
    (cs : List Module) (tb : Bool)
    (hleaves : ∀ c ∈ cs, leavesOnly c = true)
    (hnodup : (ps.map (·.id) ++ cs.flatMap allParamIds).Nodup) :
    ∀ (todo : List (Nat × Option ℚ)) (cs' : List Module) (opt : Optimizer),
      cs'.length = cs.length →
      (∀ j : Nat, cs'[j]? = (cs[j]?).map (recursive_freeze tb) ∨
          cs'[j]? = (cs[j]?).map make_trainable) →
      opt.param_groups ≠ [] →
      (∀ i2 : Nat,
        opt.param_groups.countP (fun g => decide (i2 ∈ g.params)) =
          if i2 ∈ trainableIds (Module.mk b t ps cs') then 1 else 0) →
      (todo.map Prod.fst).Nodup →
      (∀ p ∈ todo, cs'[p.1]? = (cs[p.1]?).map (recursive_freeze tb) ∧
          p.1 < cs.length) →
      ∀ i : Nat,
        (processStages tb todo
            (Module.mk b t ps cs', opt)).2.param_groups.countP
            (fun g => decide (i ∈ g.params)) =
          if i ∈ trainableIds
              (processStages tb todo (Module.mk b t ps cs', opt)).1
          then 1 else 0 := by
  -- shared nodup consequences
  have hnd_split := List.nodup_append.mp hnodup
  have hndAll : (cs.flatMap allParamIds).Nodup := hnd_split.2.1
  have hdisj : (ps.map (·.id)).Disjoint (cs.flatMap allParamIds) :=
    hnd_split.2.2
  have hchildNodup : ∀ c ∈ cs, (allParamIds c).Nodup :=
    (List.nodup_flatMap.mp hndAll).1
  have hmemRoot : ∀ (l : List Module) (i2 : Nat),
      i2 ∈ trainableIds (Module.mk b t ps l) ↔
        i2 ∈ (ps.filter (·.requires_grad)).map (·.id) ∨
        ∃ (j : Nat) (c : Module), l[j]? = some c ∧ i2 ∈ trainableIds c := by
    intro l i2
    rw [show trainableIds (Module.mk b t ps l) =
        (ps.filter (·.requires_grad)).map (·.id) ++ l.flatMap trainableIds
      from by simp [trainableIds, trainableIdsL_eq]]
    rw [List.mem_append, mem_flatMap_index]
  intro todo
  induction todo with
  | nil =>
    intro cs' opt _ _ _ hcount _ _ i
    simpa [processStages] using hcount i
  | cons p rest ih =>
    intro cs' opt hlen hchild hopt hcount hnd hunf i
    obtain ⟨hpA, hplt⟩ := hunf p (by simp)
    have halen : p.1 < cs'.length := by omega
    have hcsa : cs[p.1]? = some (cs.get ⟨p.1, hplt⟩) := by
      rw [List.get_eq_getElem]
      exact List.getElem?_eq_getElem hplt
    have hca_mem : cs.get ⟨p.1, hplt⟩ ∈ cs := List.getElem?_mem hcsa
    have hcsa' : cs'[p.1]? = some (recursive_freeze tb (cs.get ⟨p.1, hplt⟩)) := by
      rw [hpA, hcsa]
      rfl
    -- evaluate the fire on child p.1
    obtain ⟨plr, hu⟩ :=
      unfreeze_shape (cs'.get ⟨p.1, halen⟩) opt p.2 tb hopt
    have hget' : cs'.get ⟨p.1, halen⟩ = recursive_freeze tb (cs.get ⟨p.1, hplt⟩) := by
      have h2 : some (cs'.get ⟨p.1, halen⟩) =
          some (recursive_freeze tb (cs.get ⟨p.1, hplt⟩)) := by
        rw [List.get_eq_getElem, ← List.getElem?_eq_getElem halen, hcsa']
      exact Option.some.inj h2
    have hmt : make_trainable (cs'.get ⟨p.1, halen⟩) =
        make_trainable (cs.get ⟨p.1, hplt⟩) := by
      rw [hget']
      exact make_trainable_recursive_freeze tb (cs.get ⟨p.1, hplt⟩)
    have hfp : filter_params tb (make_trainable (cs'.get ⟨p.1, halen⟩)) =
        if tb then nonBNLeafIds (cs.get ⟨p.1, hplt⟩)
        else allParamIds (cs.get ⟨p.1, hplt⟩) := by
      rw [hmt]
      exact filter_params_make_trainable tb (cs.get ⟨p.1, hplt⟩)
        (hleaves _ hca_mem)
    have hfire : fireOnChild tb p.2 p.1 (Module.mk b t ps cs', opt) =
        (Module.mk b t ps
            (cs'.set p.1 (make_trainable (cs.get ⟨p.1, hplt⟩))),
         ⟨opt.param_groups ++
           [⟨if tb then nonBNLeafIds (cs.get ⟨p.1, hplt⟩)
             else allParamIds (cs.get ⟨p.1, hplt⟩), plr⟩]⟩) := by
      rw [fireOnChild, dif_pos halen, hu, hfp, hmt]
    have hstep : processStages tb (p :: rest) (Module.mk b t ps cs', opt) =
        processStages tb rest
          (Module.mk b t ps
              (cs'.set p.1 (make_trainable (cs.get ⟨p.1, hplt⟩))),
           ⟨opt.param_groups ++
             [⟨if tb then nonBNLeafIds (cs.get ⟨p.1, hplt⟩)
               else allParamIds (cs.get ⟨p.1, hplt⟩), plr⟩]⟩) := by
      simp only [processStages, List.foldl_cons]
      rw [hfire]
    rw [hstep]
    have hnd' : p.1 ∉ rest.map Prod.fst ∧ (rest.map Prod.fst).Nodup := by
      rw [List.map_cons, List.nodup_cons] at hnd
      exact hnd
    -- apply the induction hypothesis to the post-fire state
    apply ih
    -- 1: length
    · rw [List.length_set]
      exact hlen
    -- 2: every child is a frozen or unfrozen copy
    · intro j
      by_cases hja : j = p.1
      · subst hja
        right
        rw [List.getElem?_set_eq_of_lt _ halen, hcsa]
        rfl
      · rw [List.getElem?_set_ne (fun hc => hja hc.symm)]
        exact hchild j
    -- 3: nonempty optimizer
    · simp
    -- 4: the count invariant survives the fire
    · intro i2
      have hsplit :
          (opt.param_groups ++
              [(⟨if tb then nonBNLeafIds (cs.get ⟨p.1, hplt⟩)
                else allParamIds (cs.get ⟨p.1, hplt⟩), plr⟩ : ParamGroup)]).countP
              (fun g => decide (i2 ∈ g.params)) =
            opt.param_groups.countP (fun g => decide (i2 ∈ g.params)) +
            (if i2 ∈ (if tb then nonBNLeafIds (cs.get ⟨p.1, hplt⟩)
                else allParamIds (cs.get ⟨p.1, hplt⟩)) then 1 else 0) := by
        rw [List.countP_append]
        simp [List.countP_cons]
      rw [hsplit, hcount i2]
      have hcnt := count_allParamIds_split (cs.get ⟨p.1, hplt⟩) i2
        (hleaves _ hca_mem)
      have hndCa : (allParamIds (cs.get ⟨p.1, hplt⟩)).Nodup :=
        hchildNodup _ hca_mem
      by_cases hiA : i2 ∈ allParamIds (cs.get ⟨p.1, hplt⟩)
      · -- the id lives in the fired child
        have hiPs : i2 ∉ ps.map (·.id) := fun hc =>
          hdisj hc (List.mem_flatMap.mpr ⟨_, hca_mem, hiA⟩)
        have hiPsF : i2 ∉ (ps.filter (·.requires_grad)).map (·.id) := by
          intro hc
          obtain ⟨q, hq, hqi⟩ := List.mem_map.1 hc
          exact hiPs (List.mem_map.2 ⟨q, (List.mem_filter.1 hq).1, hqi⟩)
        have hOther : ∀ (j : Nat) (c : Module), j ≠ p.1 →
            cs[j]? = some c → i2 ∉ allParamIds c := fun j c hne hj =>
          nodup_flatMap_disjoint cs allParamIds hndAll p.1 j _ c hcsa hj
            (fun hc => hne hc.symm) i2 hiA
        have hOld : (i2 ∈ trainableIds (Module.mk b t ps cs')) ↔
            (tb = true ∧ i2 ∈ bnLeafIds (cs.get ⟨p.1, hplt⟩)) := by
          rw [hmemRoot]
          constructor
          · rintro (hc | ⟨j, c, hj, hc⟩)
            · exact absurd hc hiPsF
            · by_cases hja : j = p.1
              · subst hja
                rw [hcsa'] at hj
                cases Option.some.inj hj
                rw [trainableIds_recursive_freeze tb _
                  (hleaves _ hca_mem)] at hc
                rcases Bool.eq_false_or_eq_true tb with htb | htb
                · rw [htb, if_pos rfl] at hc
                  exact ⟨htb, hc⟩
                · rw [htb] at hc
                  simp at hc
              · have hjlt : j < cs.length := by
                  have := (List.getElem?_eq_some.1 hj).1
                  omega
                have hcj : cs[j]? = some (cs.get ⟨j, hjlt⟩) := by
                  rw [List.get_eq_getElem]
                  exact List.getElem?_eq_getElem hjlt
                have hcc : c = recursive_freeze tb (cs.get ⟨j, hjlt⟩) ∨
                    c = make_trainable (cs.get ⟨j, hjlt⟩) := by
                  rcases hchild j with hcase | hcase
                  · left
                    rw [hcj] at hcase
                    rw [hcase] at hj
                    exact (Option.some.inj hj).symm
                  · right
                    rw [hcj] at hcase
                    rw [hcase] at hj
                    exact (Option.some.inj hj).symm
                exfalso
                have h1 := mem_trainableIds_allParamIds c i2 hc
                rw [allParamIds_child_case tb _ c hcc] at h1
                exact hOther j _ hja hcj h1
          · rintro ⟨htb, hbn⟩
            right
            refine ⟨p.1, recursive_freeze tb (cs.get ⟨p.1, hplt⟩), hcsa', ?_⟩
            rw [trainableIds_recursive_freeze tb _ (hleaves _ hca_mem),
              htb, if_pos rfl]
            exact hbn
        have hNew : i2 ∈ trainableIds (Module.mk b t ps
            (cs'.set p.1 (make_trainable (cs.get ⟨p.1, hplt⟩)))) := by
          rw [hmemRoot]
          right
          refine ⟨p.1, make_trainable (cs.get ⟨p.1, hplt⟩),
            List.getElem?_set_eq_of_lt _ halen, ?_⟩
          rw [trainableIds_make_trainable]
          exact hiA
        rw [if_pos hNew]
        rcases Bool.eq_false_or_eq_true tb with htb | htb
        · subst htb
          by_cases hbn : i2 ∈ bnLeafIds (cs.get ⟨p.1, hplt⟩)
          · have hnbn : i2 ∉ nonBNLeafIds (cs.get ⟨p.1, hplt⟩) := by
              intro hc
              have h3 : 0 < (bnLeafIds (cs.get ⟨p.1, hplt⟩)).count i2 :=
                List.count_pos_iff.mpr hbn
              have h4 : 0 < (nonBNLeafIds (cs.get ⟨p.1, hplt⟩)).count i2 :=
                List.count_pos_iff.mpr hc
              have h5 : (allParamIds (cs.get ⟨p.1, hplt⟩)).count i2 ≤ 1 :=
                List.nodup_iff_count_le_one.mp hndCa i2
              omega
            rw [if_pos (hOld.mpr ⟨rfl, hbn⟩), if_pos rfl, if_neg hnbn]
          · have hnbn : i2 ∈ nonBNLeafIds (cs.get ⟨p.1, hplt⟩) := by
              have h3 : 0 < (allParamIds (cs.get ⟨p.1, hplt⟩)).count i2 :=
                List.count_pos_iff.mpr hiA
              have h4 : (bnLeafIds (cs.get ⟨p.1, hplt⟩)).count i2 = 0 :=
                List.count_eq_zero.mpr hbn
              refine List.count_pos_iff.mp ?_
              omega
            rw [if_neg (fun hc => hbn (hOld.mp hc).2), if_pos rfl,
              if_pos hnbn]
        · subst htb
          have hOldF : i2 ∉ trainableIds (Module.mk b t ps cs') := by
            intro hc
            have := (hOld.mp hc).1
            simp at this
          rw [if_neg hOldF]
          simp only [Bool.false_eq_true, if_false]
          rw [if_pos hiA]
      · -- the id lives outside the fired child: nothing changes for it
        have hnG : i2 ∉ (if tb then nonBNLeafIds (cs.get ⟨p.1, hplt⟩)
            else allParamIds (cs.get ⟨p.1, hplt⟩)) := by
          rcases Bool.eq_false_or_eq_true tb with htb | htb <;> subst htb
          · rw [if_pos rfl]
            intro hc
            have h4 : 0 < (nonBNLeafIds (cs.get ⟨p.1, hplt⟩)).count i2 :=
              List.count_pos_iff.mpr hc
            have h5 : (allParamIds (cs.get ⟨p.1, hplt⟩)).count i2 = 0 :=
              List.count_eq_zero.mpr hiA
            omega
          · simp only [Bool.false_eq_true, if_false]
            exact hiA
        have hsame : (i2 ∈ trainableIds (Module.mk b t ps cs')) ↔
            (i2 ∈ trainableIds (Module.mk b t ps
              (cs'.set p.1 (make_trainable (cs.get ⟨p.1, hplt⟩))))) := by
          rw [hmemRoot, hmemRoot]
          constructor
          · rintro (hc | ⟨j, c, hj, hc⟩)
            · exact Or.inl hc
            · by_cases hja : j = p.1
              · subst hja
                rw [hcsa'] at hj
                cases Option.some.inj hj
                exfalso
                have h1 := mem_trainableIds_allParamIds _ i2 hc
                rw [allParamIds_recursive_freeze] at h1
                exact hiA h1
              · exact Or.inr ⟨j, c, by
                  rw [List.getElem?_set_ne (fun hc2 => hja hc2.symm)]
                  exact hj, hc⟩
          · rintro (hc | ⟨j, c, hj, hc⟩)
            · exact Or.inl hc
            · by_cases hja : j = p.1
              · subst hja
                rw [List.getElem?_set_eq_of_lt _ halen] at hj
                cases Option.some.inj hj
                exfalso
                have h1 := mem_trainableIds_allParamIds _ i2 hc
                rw [allParamIds_make_trainable] at h1
                exact hiA h1
              · rw [List.getElem?_set_ne (fun hc2 => hja hc2.symm)] at hj
                exact Or.inr ⟨j, c, hj, hc⟩
        rw [if_neg hnG, Nat.add_zero]
        by_cases hc : i2 ∈ trainableIds (Module.mk b t ps cs')
        · rw [if_pos hc, if_pos (hsame.mp hc)]
        · rw [if_neg hc, if_neg (fun h2 => hc (hsame.mpr h2))]
    -- 5: remaining targets are still distinct
    · exact hnd'.2
    -- 6: remaining targets are still unfired
    · intro q hq
      have hqa : q.1 ≠ p.1 := by
        intro hc
        exact hnd'.1 (hc ▸ List.mem_map_of_mem Prod.fst hq)
      refine ⟨?_, (hunf q (by simp [hq])).2⟩
      rw [List.getElem?_set_ne (fun hc => hqa hc.symm)]
      exact (hunf q (by simp [hq])).1

/-! ### Claim theorems -/

/-- **C1.** For every module and every given non-negative `n`,
`freeze(module, n, train_bn)` applies the recursive freeze to exactly
the first `n_max` children (`n_max = n` clamped to the child count;
`n = None` means all children) and makes every remaining child
trainable; in particular `n = 0` freezes no child and makes all
children trainable. -/
theorem freeze_prefix_partition (b t : Bool) (ps : List Param)
    (cs : List Module) (n : Option Int) (tb : Bool) (h : 0 ≤ n.getD 0) :
    freeze (Module.mk b t ps cs) n tb =
      Module.mk b t ps
        ((cs.take (n.elim cs.length fun v => min v.toNat cs.length)).map
            (recursive_freeze tb) ++
         (cs.drop (n.elim cs.length fun v => min v.toNat cs.length)).map
            make_trainable) := by
  cases n with
  | none => simp [freeze, Option.elim]
  | some v =>
    simp only [Option.getD] at h
    have hidx : pySliceIdx cs.length v = min v.toNat cs.length := by
      unfold pySliceIdx
      rw [if_neg (by omega)]
    simp [freeze, hidx, Option.elim]

/-- Witness for C1 at a concrete three-child tree with `n = 2`. -/
theorem freeze_prefix_partition_witness :
    0 ≤ ((some 2 : Option Int).getD 0) ∧
    freeze (Module.mk false true [] [pLeaf 0, pLeaf 1, pLeaf 2])
        (some 2) true =
      Module.mk false true []
        (([pLeaf 0, pLeaf 1, pLeaf 2].take
            ((some 2 : Option Int).elim
              [pLeaf 0, pLeaf 1, pLeaf 2].length
              fun v => min v.toNat [pLeaf 0, pLeaf 1, pLeaf 2].length)).map
            (recursive_freeze true) ++
         ([pLeaf 0, pLeaf 1, pLeaf 2].drop
            ((some 2 : Option Int).elim
              [pLeaf 0, pLeaf 1, pLeaf 2].length
              fun v => min v.toNat [pLeaf 0, pLeaf 1, pLeaf 2].length)).map
            make_trainable) :=
  ⟨by decide,
   freeze_prefix_partition false true [] [pLeaf 0, pLeaf 1, pLeaf 2]
     (some 2) true (by decide)⟩

/-- **C2.** The recursive freeze maps each leaf of the subtree to: all
parameters trainable and training mode when it is a BN unit and
`keep_norm_trainable` holds, otherwise all parameters frozen and
evaluation mode; every non-leaf node's own data (`isBN`, mode, direct
parameters) is untouched. -/
theorem recursive_freeze_leaf_behavior (tb : Bool) (m : Module) :
    leaves (recursive_freeze tb m) =
      (leaves m).map (fun l =>
        if l.isBN && tb then
          Module.mk l.isBN true (l.params.map fun p => ⟨p.id, true⟩) []
        else
          Module.mk l.isBN false (l.params.map fun p => ⟨p.id, false⟩) []) ∧
    internals (recursive_freeze tb m) = internals m := by
  induction m using Module.inductionOn with
  | ih b t ps cs h =>
    cases cs with
    | nil =>
      cases b <;> cases tb <;>
        simp [recursive_freeze, make_trainable, leaves, internals,
          Module.isBN, Module.params]
    | cons c cs' =>
      constructor
      · simp only [recursive_freeze, recursive_freezeL, recursive_freezeL_eq,
          leaves, leavesL, leavesL_eq, List.flatMap_map, List.map_flatMap,
          List.flatMap_cons, List.map_cons]
        rw [(h c (by simp)).1,
          List.flatMap_congr (fun x hx => (h x (by simp [hx])).1)]
        simp [List.map_append, List.map_flatMap]
      · simp only [recursive_freeze, recursive_freezeL, recursive_freezeL_eq,
          internals, internalsL, internalsL_eq, List.flatMap_map,
          List.flatMap_cons, List.cons.injEq, true_and]
        rw [(h c (by simp)).2,
          List.flatMap_congr (fun x hx => (h x (by simp [hx])).2)]

/-- **C3.** `_unfreeze_and_add_param_group` appends exactly one new
parameter group, whose learning rate is `lr / 10` when `lr` is given
and `optimizer.param_groups[0]["lr"] / 10` when `lr is None`. -/
theorem unfreeze_and_add_group_lr (m : Module) (opt : Optimizer)
    (lr : Option ℚ) (tb : Bool) (h : opt.param_groups ≠ []) :
    ∃ g : ParamGroup,
      unfreeze_and_add_param_group m opt lr tb =
        some (make_trainable m, ⟨opt.param_groups ++ [g]⟩) ∧
      g.lr = lr.getD opt.param_groups.headI.lr / 10 := by
  cases lr with
  | some l =>
    exact ⟨⟨filter_params tb (make_trainable m), l / 10⟩, rfl, rfl⟩
  | none =>
    cases hpg : opt.param_groups with
    | nil => exact absurd hpg h
    | cons g0 gs =>
      refine ⟨⟨filter_params tb (make_trainable m), g0.lr / 10⟩, ?_, ?_⟩
      · simp [unfreeze_and_add_param_group, hpg]
      · simp [hpg, List.headI]

/-- Witness for C3: with `lr = None` the appended group's rate is
group 0's rate divided by 10. -/
theorem unfreeze_and_add_group_lr_witness :
    (Optimizer.mk [⟨[5], 1⟩]).param_groups ≠ [] ∧
    ∃ g : ParamGroup,
      unfreeze_and_add_param_group (pLeaf 0) ⟨[⟨[5], 1⟩]⟩ none true =
        some (make_trainable (pLeaf 0),
          ⟨(Optimizer.mk [⟨[5], 1⟩]).param_groups ++ [g]⟩) ∧
      g.lr = (none : Option ℚ).getD
          (Optimizer.mk [⟨[5], 1⟩]).param_groups.headI.lr / 10 :=
  ⟨by simp,
   unfreeze_and_add_group_lr (pLeaf 0) ⟨[⟨[5], 1⟩]⟩ none true (by simp)⟩

/-- **C4, counterexample.** On a BN leaf with one parameter and
`keep_norm_trainable = false`, the code's new group collects the BN
parameter, while the collector as the claim words it excludes it. -/
theorem claimed_collect_counterexample :
    ((unfreeze_and_add_param_group (bnLeaf 0) ⟨[⟨[5], 1⟩]⟩ none false).map
        fun s => s.2.param_groups.map (·.params)) = some [[5], [0]] ∧
    claimedCollect false (make_trainable (bnLeaf 0)) = [] := by decide

/-- **C4, amended.** The parameters collected for the new group are
exactly the (now all-trainable) leaf parameters of the subtree,
excluding normalization-unit parameters when `keep_norm_trainable` is
TRUE (not false as the claim stated). -/
theorem unfreeze_collects_nonbn_when_train_bn (m : Module)
    (opt : Optimizer) (lr : Option ℚ) (tb : Bool)
    (h1 : opt.param_groups ≠ []) (h2 : leavesOnly m = true) :
    ∃ g : ParamGroup,
      unfreeze_and_add_param_group m opt lr tb =
        some (make_trainable m, ⟨opt.param_groups ++ [g]⟩) ∧
      g.params = if tb then nonBNLeafIds m else allParamIds m := by
  cases lr with
  | some l =>
    exact ⟨⟨filter_params tb (make_trainable m), l / 10⟩, rfl,
      filter_params_make_trainable tb m h2⟩
  | none =>
    cases hpg : opt.param_groups with
    | nil => exact absurd hpg h1
    | cons g0 gs =>
      refine ⟨⟨filter_params tb (make_trainable m), g0.lr / 10⟩, ?_,
        filter_params_make_trainable tb m h2⟩
      simp [unfreeze_and_add_param_group, hpg]

/-- Witness for the amended C4 on a mixed two-leaf subtree with
`keep_norm_trainable = true`: only the non-BN parameter is collected. -/
theorem unfreeze_collects_nonbn_witness :
    (Optimizer.mk [⟨[5], 1⟩]).param_groups ≠ [] ∧
    leavesOnly (Module.mk false true [] [bnLeaf 0, pLeaf 1]) = true ∧
    ∃ g : ParamGroup,
      unfreeze_and_add_param_group (Module.mk false true [] [bnLeaf 0, pLeaf 1])
          ⟨[⟨[5], 1⟩]⟩ none true =
        some (make_trainable (Module.mk false true [] [bnLeaf 0, pLeaf 1]),
          ⟨(Optimizer.mk [⟨[5], 1⟩]).param_groups ++ [g]⟩) ∧
      g.params = if true then nonBNLeafIds (Module.mk false true [] [bnLeaf 0, pLeaf 1])
        else allParamIds (Module.mk false true [] [bnLeaf 0, pLeaf 1]) :=
  ⟨by simp, by decide,
   unfreeze_collects_nonbn_when_train_bn
     (Module.mk false true [] [bnLeaf 0, pLeaf 1]) ⟨[⟨[5], 1⟩]⟩ none true
     (by simp) (by decide)⟩

/-- **C5, counterexample.** `freeze` with `n = -1` neither raises a
`ConfigurationError` nor leaves the flags unchanged: it completes
normally and freezes the first child's parameter. -/
theorem freeze_negative_no_error_counterexample :
    trainableIds (freeze twoLeafNet (some (-1)) true) = [1] ∧
    trainableIds twoLeafNet = [0, 1] := by decide

/-- **C5, amended.** `freeze` performs no validation of `n`: every
integer `n`, negative ones included, is accepted without error, the
first children up to the Python-normalized slice index being frozen and
the rest made trainable. -/
theorem freeze_accepts_any_int (b t : Bool) (ps : List Param)
    (cs : List Module) (v : Int) (tb : Bool) :
    freeze (Module.mk b t ps cs) (some v) tb =
      Module.mk b t ps
        ((cs.take (if 0 ≤ v then min v.toNat cs.length
              else ((cs.length : Int) + v).toNat)).map
            (recursive_freeze tb) ++
         (cs.drop (if 0 ≤ v then min v.toNat cs.length
              else ((cs.length : Int) + v).toNat)).map
            make_trainable) := by
  have hidx : pySliceIdx cs.length v =
      if 0 ≤ v then min v.toNat cs.length
      else ((cs.length : Int) + v).toNat := by
    unfold pySliceIdx
    split <;> split <;> omega
  simp [freeze, hidx]

/-- **C6, counterexample.** On a parameter-less leaf the collected set
is empty, yet the call succeeds (no `EmptyGroupError`) and appends a
group with an empty parameter list. -/
theorem empty_group_appended_counterexample :
    (unfreeze_and_add_param_group emptyLeaf ⟨[⟨[5], 1⟩]⟩ none true).isSome
        = true ∧
    ((unfreeze_and_add_param_group emptyLeaf ⟨[⟨[5], 1⟩]⟩ none true).map
        fun s => s.2.param_groups.map (·.params)) = some [[5], []] := by
  decide

/-- **C6, amended.** `_unfreeze_and_add_param_group` appends the new
group unconditionally — also when the collected parameter set is empty —
and never fails (there is no `EmptyGroupError` check). -/
theorem unfreeze_always_appends (m : Module) (opt : Optimizer)
    (lr : Option ℚ) (tb : Bool) (h : opt.param_groups ≠ []) :
    ∃ m' opt',
      unfreeze_and_add_param_group m opt lr tb = some (m', opt') ∧
      opt'.param_groups.length = opt.param_groups.length + 1 := by
  cases lr with
  | some l =>
    refine ⟨make_trainable m,
      ⟨opt.param_groups ++ [⟨filter_params tb (make_trainable m), l / 10⟩]⟩,
      ?_, by simp⟩
    rfl
  | none =>
    cases hpg : opt.param_groups with
    | nil => exact absurd hpg h
    | cons g0 gs =>
      refine ⟨make_trainable m,
        ⟨opt.param_groups ++
          [⟨filter_params tb (make_trainable m), g0.lr / 10⟩]⟩, ?_,
        by simp [hpg]⟩
      simp [unfreeze_and_add_param_group, hpg]

/-- Witness for the amended C6: the parameter-less leaf still yields a
one-group append. -/
theorem unfreeze_always_appends_witness :
    (Optimizer.mk [⟨[5], 1⟩]).param_groups ≠ [] ∧
    ∃ m' opt',
      unfreeze_and_add_param_group emptyLeaf ⟨[⟨[5], 1⟩]⟩ none true =
        some (m', opt') ∧
      opt'.param_groups.length =
        (Optimizer.mk [⟨[5], 1⟩]).param_groups.length + 1 :=
  ⟨by simp,
   unfreeze_always_appends emptyLeaf ⟨[⟨[5], 1⟩]⟩ none true (by simp)⟩

/-- **C9.** For negative `n`, `freeze` raises no error and follows
Python slice semantics: the first `max(c + n, 0)` children are
recursively frozen, and the remaining — the last `min(-n, c)` — are made
trainable. -/
theorem freeze_negative_slice (b t : Bool) (ps : List Param)
    (cs : List Module) (v : Int) (tb : Bool) (h : v < 0) :
    freeze (Module.mk b t ps cs) (some v) tb =
      Module.mk b t ps
        ((cs.take (((cs.length : Int) + v).toNat)).map
            (recursive_freeze tb) ++
         (cs.drop (((cs.length : Int) + v).toNat)).map make_trainable) ∧
    (cs.take (((cs.length : Int) + v).toNat)).length =
      ((cs.length : Int) + v).toNat ∧
    (cs.drop (((cs.length : Int) + v).toNat)).length =
      min (-v).toNat cs.length := by
  have hidx : pySliceIdx cs.length v = ((cs.length : Int) + v).toNat := by
    unfold pySliceIdx
    rw [if_pos h]
    omega
  refine ⟨by simp [freeze, hidx], ?_, ?_⟩
  · simp only [List.length_take]
    omega
  · simp only [List.length_drop]
    omega

/-- Witness for C9 at a three-child tree with `n = -1`. -/
theorem freeze_negative_slice_witness :
    (-1 : Int) < 0 ∧
    (freeze (Module.mk false true [] [pLeaf 0, pLeaf 1, pLeaf 2])
        (some (-1)) true =
      Module.mk false true []
        (([pLeaf 0, pLeaf 1, pLeaf 2].take
            ((([pLeaf 0, pLeaf 1, pLeaf 2].length : Int) + -1).toNat)).map
            (recursive_freeze true) ++
         ([pLeaf 0, pLeaf 1, pLeaf 2].drop
            ((([pLeaf 0, pLeaf 1, pLeaf 2].length : Int) + -1).toNat)).map
            make_trainable) ∧
    ([pLeaf 0, pLeaf 1, pLeaf 2].take
        ((([pLeaf 0, pLeaf 1, pLeaf 2].length : Int) + -1).toNat)).length =
      (([pLeaf 0, pLeaf 1, pLeaf 2].length : Int) + -1).toNat ∧
    ([pLeaf 0, pLeaf 1, pLeaf 2].drop
        ((([pLeaf 0, pLeaf 1, pLeaf 2].length : Int) + -1).toNat)).length =
      min (-(-1) : Int).toNat [pLeaf 0, pLeaf 1, pLeaf 2].length) :=
  ⟨by decide,
   freeze_negative_slice false true [] [pLeaf 0, pLeaf 1, pLeaf 2] (-1) true
     (by decide)⟩

/-- **C10.** `freeze` never touches the root module itself: its direct
parameters (with their flags) and its own mode flag are returned
unchanged; only the children are rebuilt. -/
theorem freeze_root_frame (m : Module) (n : Option Int) (tb : Bool) :
    (freeze m n tb).params = m.params ∧
    (freeze m n tb).training = m.training := by
  cases m with
  | mk b t ps cs => cases n <;> simp [freeze, Module.params, Module.training]

/-- **C8.** The Stage Scheduler is idempotent over epoch indices:
after `on_epoch_end(e)` has processed an epoch, a second call with the
same epoch — or with any past epoch index `e' ≤ e` — fires no transition
that already fired and leaves the whole state (remaining stages, network
and optimizer) unchanged, so no duplicate optimizer group is ever
appended. -/
theorem on_epoch_end_idempotent (tb : Bool) (e e' : Nat)
    (stages : List Stage) (s : Module × Optimizer) (h : e' ≤ e) :
    onEpochEnd tb e' (onEpochEnd tb e stages s).1
        (onEpochEnd tb e stages s).2 =
      onEpochEnd tb e stages s := by
  induction stages generalizing s with
  | nil => simp [onEpochEnd]
  | cons st rest ih =>
    by_cases hm : st.milestone ≤ e
    · simp only [onEpochEnd, if_pos hm]
      exact ih _
    · have hm' : ¬st.milestone ≤ e' := fun hc => hm (hc.trans h)
      simp only [onEpochEnd, if_neg hm, if_neg hm']

/-- Witness for C8: the epoch-7 call fires the threshold-5 stage; a
revisit with epoch 5 changes nothing. -/
theorem on_epoch_end_idempotent_witness :
    5 ≤ 7 ∧
    onEpochEnd true 5
        (onEpochEnd true 7 [⟨5, 0, none⟩, ⟨10, 1, none⟩]
          (twoLeafNet, ⟨[⟨[0, 1], 1⟩]⟩)).1
        (onEpochEnd true 7 [⟨5, 0, none⟩, ⟨10, 1, none⟩]
          (twoLeafNet, ⟨[⟨[0, 1], 1⟩]⟩)).2 =
      onEpochEnd true 7 [⟨5, 0, none⟩, ⟨10, 1, none⟩]
        (twoLeafNet, ⟨[⟨[0, 1], 1⟩]⟩) :=
  ⟨by decide,
   on_epoch_end_idempotent true 7 5 [⟨5, 0, none⟩, ⟨10, 1, none⟩]
     (twoLeafNet, ⟨[⟨[0, 1], 1⟩]⟩) (by decide)⟩

/-- **C7.** After stage processing completes — the configuration-time
partial freeze followed by the schedule's unfreeze-and-add-group
transitions on distinct children of the frozen prefix — every parameter
currently marked trainable belongs to exactly one optimizer parameter
group, and no parameter (frozen ones included) belongs to two groups:
the group count per id is `1` for trainable ids and `0` otherwise. -/
theorem trainable_params_in_exactly_one_group (b t : Bool)
    (ps : List Param) (cs : List Module) (n : Option Int) (tb : Bool)
    (lr0 : ℚ) (targets : List (Nat × Option ℚ))
    (hleaves : leavesOnly (Module.mk b t ps cs) = true)
    (hnodup : (allParamIds (Module.mk b t ps cs)).Nodup)
    (htargets : (targets.map Prod.fst).Nodup)
    (hrange : ∀ p ∈ targets, p.1 < effIdx cs.length n) :
    ∀ i : Nat,
      (processStages tb targets
          (freeze (Module.mk b t ps cs) n tb,
           initialOptimizer (freeze (Module.mk b t ps cs) n tb)
             lr0)).2.param_groups.countP (fun g => decide (i ∈ g.params)) =
        if i ∈ trainableIds (processStages tb targets
            (freeze (Module.mk b t ps cs) n tb,
             initialOptimizer (freeze (Module.mk b t ps cs) n tb) lr0)).1
        then 1 else 0 := by
  have hk := effIdx_le cs.length n
  have hleaves' : ∀ c ∈ cs, leavesOnly c = true := by
    cases cs with
    | nil => intro c hc; cases hc
    | cons c0 cs0 =>
      intro c hc
      simp only [leavesOnly, Bool.and_eq_true, leavesOnlyL_eq,
        List.all_eq_true] at hleaves
      exact hleaves.2 c hc
  have hnodup' : (ps.map (·.id) ++ cs.flatMap allParamIds).Nodup := by
    simpa [allParamIds, allParamIdsL_eq] using hnodup
  rw [freeze_eq_effIdx]
  have hlenF :
      ((cs.take (effIdx cs.length n)).map (recursive_freeze tb) ++
        (cs.drop (effIdx cs.length n)).map make_trainable).length =
      cs.length := by
    simp only [List.length_append, List.length_map, List.length_take,
      List.length_drop]
    omega
  have hchildF : ∀ j : Nat,
      ((cs.take (effIdx cs.length n)).map (recursive_freeze tb) ++
        (cs.drop (effIdx cs.length n)).map make_trainable)[j]? =
        (cs[j]?).map (recursive_freeze tb) ∨
      ((cs.take (effIdx cs.length n)).map (recursive_freeze tb) ++
        (cs.drop (effIdx cs.length n)).map make_trainable)[j]? =
        (cs[j]?).map make_trainable := by
    intro j
    rw [getElem?_freeze_children cs (effIdx cs.length n) tb hk j]
    by_cases hj : j < effIdx cs.length n
    · left
      rw [if_pos hj]
    · right
      rw [if_neg hj]
  have hunfF : ∀ p ∈ targets,
      ((cs.take (effIdx cs.length n)).map (recursive_freeze tb) ++
        (cs.drop (effIdx cs.length n)).map make_trainable)[p.1]? =
        (cs[p.1]?).map (recursive_freeze tb) ∧ p.1 < cs.length := by
    intro p hp
    have h1 := hrange p hp
    refine ⟨?_, by omega⟩
    rw [getElem?_freeze_children cs (effIdx cs.length n) tb hk p.1,
      if_pos h1]
  exact processStages_count b t ps cs tb hleaves' hnodup' targets _ _
    hlenF hchildF (by simp [initialOptimizer])
    (fun i2 => by simp [initialOptimizer, List.countP_cons]) htargets hunfF

/-- Witness for C7: the spec's three-children scenario — `freeze` with
`n = 1`, then the schedule fires on child 0; parameter 1 (the non-BN
parameter of the previously frozen child) ends up trainable and in
exactly one group. -/
theorem trainable_params_in_exactly_one_group_witness :
    (processStages true [(0, some (1 / 1000))]
        (freeze (Module.mk false true []
            [Module.mk false true [] [bnLeaf 0, pLeaf 1], pLeaf 2, pLeaf 3])
          (some 1) true,
         initialOptimizer
           (freeze (Module.mk false true []
              [Module.mk false true [] [bnLeaf 0, pLeaf 1], pLeaf 2, pLeaf 3])
             (some 1) true)
           1)).2.param_groups.countP (fun g => decide ((1 : Nat) ∈ g.params)) =
      if (1 : Nat) ∈ trainableIds (processStages true [(0, some (1 / 1000))]
          (freeze (Module.mk false true []
              [Module.mk false true [] [bnLeaf 0, pLeaf 1], pLeaf 2, pLeaf 3])
            (some 1) true,
           initialOptimizer
             (freeze (Module.mk false true []
                [Module.mk false true [] [bnLeaf 0, pLeaf 1], pLeaf 2, pLeaf 3])
               (some 1) true)
             1)).1
      then 1 else 0 :=
  trainable_params_in_exactly_one_group false true []
    [Module.mk false true [] [bnLeaf 0, pLeaf 1], pLeaf 2, pLeaf 3]
    (some 1) true 1 [(0, some (1 / 1000))]
    (by decide) (by decide) (by decide) (by decide) 1

end TransferLearning
